import Mathlib

/-!
Verification of the CgBI PNG normalizer from `src/png_normalizer.rs`.

Byte buffers are modelled as `List Nat` (each entry one byte). Machine
integers are modelled as `Nat` with explicit `% 2^32` where the Rust code
performs `u32` arithmetic or casts. The external `flate2` raw-inflate and
zlib-deflate routines are third-party collaborators, so the normalizer is
parameterized over abstract functions `infl : List Nat → Option (List Nat)`
(raw DEFLATE decompression, `none` on a corrupt stream) and
`defl : List Nat → List Nat` (zlib compression).

Loops of the Rust source that advance a cursor by a data-dependent amount
are embedded with an explicit structural fuel parameter; top-level wrappers
pass a provably sufficient fuel, and every lemma carries the corresponding
sufficiency hypothesis, so the embedded functions compute exactly the values
of the source loops.

A result of `none` at the outer level models a Rust panic (an out-of-bounds
slice index); `some (Except.error e)` models `Err(e)`; `some (Except.ok v)`
models `Ok(v)`.
-/

/-- The 8-byte PNG signature `\x89PNG\r\n\x1a\n`. -/
def pngHeader : List Nat := [0x89, 0x50, 0x4E, 0x47, 0x0D, 0x0A, 0x1A, 0x0A]

/-- ASCII bytes of the chunk type tag `CgBI`. -/
def cgbiTag : List Nat := [0x43, 0x67, 0x42, 0x49]

/-- ASCII bytes of the chunk type tag `IHDR`. -/
def ihdrTag : List Nat := [0x49, 0x48, 0x44, 0x52]

/-- ASCII bytes of the chunk type tag `IDAT`. -/
def idatTag : List Nat := [0x49, 0x44, 0x41, 0x54]

/-- ASCII bytes of the chunk type tag `IEND`. -/
def iendTag : List Nat := [0x49, 0x45, 0x4E, 0x44]

/-- `byteSlice l s e` models the Rust slice `l[s..e]`. -/
def byteSlice (l : List Nat) (s e : Nat) : List Nat := (l.drop s).take (e - s)

/-- Big-endian integer value of a byte list; on a 4-byte list this models
`u32::from_be_bytes`. -/
def be32 (l : List Nat) : Nat := l.foldl (fun a b => a * 256 + b) 0

/-- `n.to_be_bytes` for a `u32` value: four big-endian bytes. -/
def u32be (n : Nat) : List Nat :=
  [n / 2^24 % 256, n / 2^16 % 256, n / 2^8 % 256, n % 256]

/-- One shift step of the CRC-32 loop body from `crc32` in the source:
`crc = if crc & 1 != 0 { (crc >> 1) ^ 0xEDB88320 } else { crc >> 1 }`. -/
def crcStep (c : Nat) : Nat :=
  if c % 2 = 1 then Nat.xor (c / 2) 0xEDB88320 else c / 2

/-- Per-byte update of the CRC-32 state: xor in the byte, then 8 shift steps. -/
def crcByte (c b : Nat) : Nat :=
  crcStep (crcStep (crcStep (crcStep (crcStep (crcStep (crcStep (crcStep (Nat.xor c b))))))))

/-- `crc32(chunk_type, data)` from the source: initial value `0xFFFFFFFF`,
reversed polynomial `0xEDB88320`, final bitwise complement (`!crc`, i.e.
xor with `0xFFFFFFFF` on a 32-bit value). -/
def crc32 (chunkType data : List Nat) : Nat :=
  Nat.xor ((chunkType ++ data).foldl crcByte 0xFFFFFFFF) 0xFFFFFFFF

/-- The byte block a single `write_chunk` call appends: 4-byte big-endian
length, type tag, payload, 4-byte big-endian CRC-32 of `type ++ payload`. -/
def chunkBytes (chunkType data : List Nat) : List Nat :=
  u32be (data.length % 2^32) ++ chunkType ++ data ++ u32be (crc32 chunkType data)

/-- `write_chunk(output, chunk_type, data)` from the source: appends the
length, tag, payload and freshly computed CRC to `output`. -/
def writeChunk (output chunkType data : List Nat) : List Nat :=
  output ++ chunkBytes chunkType data

/-- Concatenation of rendered chunks, used to state that a buffer consists
of the signature followed only by freshly written chunks. -/
def renderChunks (cs : List (List Nat × List Nat)) : List Nat :=
  (cs.map fun p => chunkBytes p.1 p.2).flatten

/-- `data.swap(i, j)` on a byte buffer (also models `ptr::swap` of two
in-bounds elements): exchanges positions `i` and `j`; out-of-range indices
never occur in the source loops, and are a no-op here. -/
def swapIdx (l : List Nat) (i j : Nat) : List Nat :=
  if i < l.length ∧ j < l.length then
    (l.set i (l.getD j 0)).set j (l.getD i 0)
  else l

/-- The remainder loop of `swap_rgb_channels_optimized`:
`while i + 3 < row_end { data.swap(i, i + 2); i += 4; }`.
The first argument is structural fuel; any fuel `≥ row_end - i` computes
the loop exactly. -/
def innerRemF : Nat → List Nat → Nat → Nat → List Nat
  | 0, l, _, _ => l
  | f + 1, l, i, e => if i + 3 < e then innerRemF f (swapIdx l i (i + 2)) (i + 4) e else l

/-- The four unsafe pointer swaps of one batched iteration:
pixels at `i`, `i+4`, `i+8`, `i+12`, each swapping offset 0 with offset 2. -/
def swapFour (l : List Nat) (i : Nat) : List Nat :=
  swapIdx (swapIdx (swapIdx (swapIdx l i (i + 2)) (i + 4) (i + 6)) (i + 8) (i + 10)) (i + 12) (i + 14)

/-- The batched inner loop of `swap_rgb_channels_optimized`:
`while i + 15 < row_end` swap four pixels and `i += 16`, then fall through
to the remainder loop. Fuel-indexed (4 fuel per batched step). -/
def innerBatchF : Nat → List Nat → Nat → Nat → List Nat
  | f + 4, l, i, e =>
      if i + 15 < e then innerBatchF f (swapFour l i) (i + 16) e else innerRemF (f + 4) l i e
  | f, l, i, e => innerRemF f l i e

/-- The row loop of `swap_rgb_channels_optimized`: for each of `height` rows,
break if `pos ≥ data.len()`, else skip the filter byte, clamp the row end to
the buffer length, run the batched inner loop, and continue at `row_end`. -/
def rowLoop : Nat → List Nat → Nat → Nat → List Nat
  | 0, l, _, _ => l
  | r + 1, l, pos, w =>
      if pos ≥ l.length then l
      else rowLoop r (innerBatchF (min (pos + 1 + w * 4) l.length) l (pos + 1)
        (min (pos + 1 + w * 4) l.length)) (min (pos + 1 + w * 4) l.length) w

/-- `swap_rgb_channels_optimized(data, width, height)` from the source. -/
def swap_rgb_channels_optimized (l : List Nat) (width height : Nat) : List Nat :=
  rowLoop height l 0 width

/-- Modelled from the spec: the straightforward reference channel reorder —
iterate scanlines, skip the filter byte, and swap bytes 0 and 2 of each
4-byte group one pixel at a time (row loop identical, inner loop is the
plain single-pixel loop). -/
def rowLoopRef : Nat → List Nat → Nat → Nat → List Nat
  | 0, l, _, _ => l
  | r + 1, l, pos, w =>
      if pos ≥ l.length then l
      else rowLoopRef r (innerRemF (min (pos + 1 + w * 4) l.length) l (pos + 1)
        (min (pos + 1 + w * 4) l.length)) (min (pos + 1 + w * 4) l.length) w

/-- Modelled from the spec: reference implementation of the channel reorder
(single-pixel swaps, no batching). -/
def swap_rgb_channels_ref (l : List Nat) (width height : Nat) : List Nat :=
  rowLoopRef height l 0 width

theorem swapIdx_length (l : List Nat) (i j : Nat) : (swapIdx l i j).length = l.length := by
  unfold swapIdx
  split <;> simp

theorem innerRemF_length (f : Nat) : ∀ l i e, (innerRemF f l i e).length = l.length := by
  induction f with
  | zero => intro l i e; rfl
  | succ f ih =>
      intro l i e
      unfold innerRemF
      split
      · rw [ih, swapIdx_length]
      · rfl

theorem getD_eq_getElem (l : List Nat) (k : Nat) (h : k < l.length) :
    l.getD k 0 = l[k] := by
  rw [List.getD_eq_getElem?_getD, List.getElem?_eq_getElem h]
  rfl

theorem list_ext_getD (l₁ l₂ : List Nat) (hlen : l₁.length = l₂.length)
    (h : ∀ k, k < l₁.length → l₁.getD k 0 = l₂.getD k 0) : l₁ = l₂ := by
  apply List.ext_getElem hlen
  intro i h₁ h₂
  have := h i h₁
  rwa [getD_eq_getElem _ _ h₁, getD_eq_getElem _ _ h₂] at this

theorem swapIdx_getD_ne (l : List Nat) (i j k : Nat) (hki : k ≠ i) (hkj : k ≠ j) :
    (swapIdx l i j).getD k 0 = l.getD k 0 := by
  unfold swapIdx
  split
  · rw [List.getD_eq_getElem?_getD, List.getElem?_set_ne (fun h => hkj h.symm),
      List.getElem?_set_ne (fun h => hki h.symm), ← List.getD_eq_getElem?_getD]
  · rfl

theorem swapIdx_getD_fst (l : List Nat) (i j : Nat) (hi : i < l.length) (hj : j < l.length) :
    (swapIdx l i j).getD i 0 = l.getD j 0 := by
  unfold swapIdx
  rw [if_pos ⟨hi, hj⟩]
  by_cases hij : i = j
  · subst hij
    rw [List.getD_eq_getElem?_getD,
      List.getElem?_set_eq_of_lt _ (by simp [hi]), Option.getD_some]
  · rw [List.getD_eq_getElem?_getD, List.getElem?_set_ne (fun h => hij h.symm),
      List.getElem?_set_eq_of_lt _ hi, Option.getD_some]

theorem swapIdx_getD_snd (l : List Nat) (i j : Nat) (hi : i < l.length) (hj : j < l.length) :
    (swapIdx l i j).getD j 0 = l.getD i 0 := by
  unfold swapIdx
  rw [if_pos ⟨hi, hj⟩]
  rw [List.getD_eq_getElem?_getD, List.getElem?_set_eq_of_lt _ (by simp [hj]), Option.getD_some]

/-- Pointwise description of the single-pixel remainder loop: position `k`
receives the value from `k+2` when `k` is a byte-0 position of a complete
group, the value from `k-2` when `k` is a byte-2 position, and keeps its
value otherwise. -/
theorem innerRemF_getD (f : Nat) : ∀ l i e k, e ≤ i + f → e ≤ l.length →
    (innerRemF f l i e).getD k 0 =
      if i ≤ k ∧ (k - i) % 4 = 0 ∧ k + 3 < e then l.getD (k + 2) 0
      else if i + 2 ≤ k ∧ (k - i) % 4 = 2 ∧ k + 1 < e then l.getD (k - 2) 0
      else l.getD k 0 := by
  induction f with
  | zero =>
      intro l i e k hf _he
      rw [if_neg (by omega), if_neg (by omega)]
      rfl
  | succ f ih =>
      intro l i e k hf he
      unfold innerRemF
      by_cases hc : i + 3 < e
      · rw [if_pos hc]
        rw [ih _ _ _ _ (by omega) (by rw [swapIdx_length]; exact he)]
        have hi : i < l.length := by omega
        have hi2 : i + 2 < l.length := by omega
        rcases Nat.lt_or_ge k (i + 4) with hk | hk
        · -- k ∈ {< i, i, i+1, i+2, i+3}: recursion leaves it to the swap
          rw [if_neg (by omega), if_neg (by omega)]
          by_cases hki : k = i
          · subst hki
            rw [swapIdx_getD_fst _ _ _ hi hi2, if_pos (by omega)]
          · by_cases hki2 : k = i + 2
            · subst hki2
              rw [swapIdx_getD_snd _ _ _ hi hi2, if_neg (by omega), if_pos (by omega),
                Nat.add_sub_cancel]
            · rw [swapIdx_getD_ne _ _ _ _ hki hki2, if_neg (by omega), if_neg (by omega)]
        · -- k ≥ i + 4: the swap at i does not touch k, k±2
          have h4 : (k - (i + 4)) % 4 = (k - i) % 4 := by omega
          by_cases hb1 : i ≤ k ∧ (k - i) % 4 = 0 ∧ k + 3 < e
          · rw [if_pos (by omega), if_pos hb1,
              swapIdx_getD_ne _ _ _ _ (by omega) (by omega)]
          · rw [if_neg (by omega)]
            by_cases hb2 : i + 2 ≤ k ∧ (k - i) % 4 = 2 ∧ k + 1 < e
            · rw [if_pos (by omega), if_neg hb1, if_pos hb2,
                swapIdx_getD_ne _ _ _ _ (by omega) (by omega)]
            · rw [if_neg (by omega), if_neg hb1, if_neg hb2,
                swapIdx_getD_ne _ _ _ _ (by omega) (by omega)]
      · rw [if_neg hc, if_neg (by omega), if_neg (by omega)]

theorem innerRemF_step (f : Nat) (l : List Nat) (i e : Nat) (h : i + 3 < e) :
    innerRemF (f + 1) l i e = innerRemF f (swapIdx l i (i + 2)) (i + 4) e := by
  show (if i + 3 < e then innerRemF f (swapIdx l i (i + 2)) (i + 4) e else l) = _
  rw [if_pos h]

theorem innerBatchF_eq_innerRemF : ∀ f l i e, e ≤ i + f → e ≤ l.length →
    innerBatchF f l i e = innerRemF f l i e := by
  intro f
  induction f using Nat.strong_induction_on with
  | _ f ih =>
    match f with
    | 0 => intro l i e _ _; rfl
    | 1 => intro l i e _ _; rfl
    | 2 => intro l i e _ _; rfl
    | 3 => intro l i e _ _; rfl
    | f + 4 =>
      intro l i e hf he
      show (if i + 15 < e then innerBatchF f (swapFour l i) (i + 16) e
        else innerRemF (f + 4) l i e) = innerRemF (f + 4) l i e
      by_cases hc : i + 15 < e
      · rw [if_pos hc, ih f (by omega) _ _ _ (by omega) (by rw [swapFour]; simp [swapIdx_length]; exact he)]
        rw [show f + 4 = f + 3 + 1 from rfl, innerRemF_step _ _ _ _ (by omega),
          show f + 3 = f + 2 + 1 from rfl, innerRemF_step _ _ _ _ (by omega),
          show f + 2 = f + 1 + 1 from rfl, innerRemF_step _ _ _ _ (by omega),
          innerRemF_step _ _ _ _ (by omega)]
        rw [show i + 4 + 4 = i + 8 by omega, show i + 4 + 2 = i + 6 by omega,
          show i + 8 + 4 = i + 12 by omega, show i + 8 + 2 = i + 10 by omega,
          show i + 12 + 4 = i + 16 by omega, show i + 12 + 2 = i + 14 by omega]
        rfl
      · rw [if_neg hc]

theorem innerBatchF_length (f : Nat) (l : List Nat) (i e : Nat) :
    (innerBatchF f l i e).length = l.length := by
  induction f using Nat.strong_induction_on generalizing l i with
  | _ f ih =>
    match f with
    | 0 => exact innerRemF_length _ _ _ _
    | 1 => exact innerRemF_length _ _ _ _
    | 2 => exact innerRemF_length _ _ _ _
    | 3 => exact innerRemF_length _ _ _ _
    | f + 4 =>
      show (if i + 15 < e then innerBatchF f (swapFour l i) (i + 16) e
        else innerRemF (f + 4) l i e).length = l.length
      split
      · rw [ih f (by omega)]
        simp [swapFour, swapIdx_length]
      · exact innerRemF_length _ _ _ _

theorem rowLoop_eq_rowLoopRef (w : Nat) : ∀ rows l pos,
    rowLoop rows l pos w = rowLoopRef rows l pos w := by
  intro rows
  induction rows with
  | zero => intro l pos; rfl
  | succ r ih =>
      intro l pos
      unfold rowLoop rowLoopRef
      split
      · rfl
      · rw [innerBatchF_eq_innerRemF _ _ _ _ (by omega) (Nat.min_le_right _ _), ih]

theorem rowLoopRef_length (w : Nat) : ∀ rows l pos, (rowLoopRef rows l pos w).length = l.length := by
  intro rows
  induction rows with
  | zero => intro l pos; rfl
  | succ r ih =>
      intro l pos
      unfold rowLoopRef
      split
      · rfl
      · rw [ih, innerRemF_length]

/-- Pointwise description of the whole channel reorder starting at `pos`:
position `k` is swapped with its partner exactly when it is the byte-0 or
byte-2 position of a complete 4-byte group inside one of the processed rows;
filter bytes and everything else are unchanged. -/
theorem rowLoopRef_getD (w : Nat) : ∀ rows (l : List Nat) (pos k : Nat),
    (rowLoopRef rows l pos w).getD k 0 =
      if pos ≤ k ∧ k < l.length ∧ (k - pos) / (1 + w * 4) < rows ∧ (k - pos) % (1 + w * 4) ≠ 0 then
        if ((k - pos) % (1 + w * 4) - 1) % 4 = 0 ∧ k + 3 < l.length then l.getD (k + 2) 0
        else if ((k - pos) % (1 + w * 4) - 1) % 4 = 2 ∧ k + 1 < l.length then l.getD (k - 2) 0
        else l.getD k 0
      else l.getD k 0 := by
  intro rows
  induction rows with
  | zero =>
      intro l pos k
      rw [if_neg (fun hcc => Nat.not_lt_zero _ hcc.2.2.1)]
      rfl
  | succ r ih =>
      intro l pos k
      unfold rowLoopRef
      by_cases hbreak : pos ≥ l.length
      · rw [if_pos hbreak, if_neg (by omega)]
      · rw [if_neg hbreak]
        set L := l.length with hL
        set e := min (pos + 1 + w * 4) L with he
        have he1 : e ≤ L := Nat.min_le_right _ _
        have he2 : e ≤ pos + 1 + w * 4 := Nat.min_le_left _ _
        have he4 : e = pos + 1 + w * 4 ∨ e = L := min_choice _ _
        have hlen' : (innerRemF e l (pos + 1) e).length = L := innerRemF_length _ _ _ _
        rw [ih, hlen']
        have hrem : ∀ m, (innerRemF e l (pos + 1) e).getD m 0 =
            if pos + 1 ≤ m ∧ (m - (pos + 1)) % 4 = 0 ∧ m + 3 < e then l.getD (m + 2) 0
            else if pos + 1 + 2 ≤ m ∧ (m - (pos + 1)) % 4 = 2 ∧ m + 1 < e then l.getD (m - 2) 0
            else l.getD m 0 := fun m =>
          innerRemF_getD e l (pos + 1) e m (by omega) he1
        rcases Nat.lt_or_ge k e with hke | hke
        · -- k is inside (or before) the current row
          rw [if_neg (by omega)]
          rcases Nat.lt_or_ge pos k with hpk | hpk
          · -- pos < k < e : k is in the data region of this row
            have hmod : (k - pos) % (1 + w * 4) = k - pos :=
              Nat.mod_eq_of_lt (by omega)
            have hdiv : (k - pos) / (1 + w * 4) = 0 :=
              Nat.div_eq_of_lt (by omega)
            rw [hrem, hmod, hdiv]
            by_cases h1 : pos + 1 ≤ k ∧ (k - (pos + 1)) % 4 = 0 ∧ k + 3 < e
            · rw [if_pos h1, if_pos (by omega), if_pos (by omega)]
            · rw [if_neg h1]
              by_cases h2 : pos + 1 + 2 ≤ k ∧ (k - (pos + 1)) % 4 = 2 ∧ k + 1 < e
              · rw [if_pos h2, if_pos (by omega), if_neg (by omega), if_pos (by omega)]
              · rw [if_neg h2, if_pos (by omega), if_neg (by omega), if_neg (by omega)]
          · -- k ≤ pos : untouched by this row and all later ones
            have h0 : (k - pos) % (1 + w * 4) = 0 := by
              rw [show k - pos = 0 by omega]
              rfl
            rw [hrem, if_neg (by omega), if_neg (by omega),
              if_neg (fun hcc => hcc.2.2.2 h0)]
        · -- k ≥ e : decided by the recursive call on the remaining rows
          rcases Nat.lt_or_ge k L with hkL | hkL
          · -- k < L, so this row was not clamped: e = pos + 1 + w * 4
            have hW : 0 < 1 + w * 4 := by omega
            have hkp : k - pos = (k - e) + (1 + w * 4) := by omega
            rw [hkp, Nat.add_div_right _ hW, Nat.add_mod_right]
            have ho3 : (k - e) % (1 + w * 4) ≤ k - e := Nat.mod_le _ _
            generalize hgo : (k - e) % (1 + w * 4) = o
            generalize hgq : (k - e) / (1 + w * 4) = q
            rw [hgo] at ho3
            by_cases hq : e ≤ k ∧ k < L ∧ q < r ∧ o ≠ 0
            · rw [if_pos hq]
              by_cases hg0 : (o - 1) % 4 = 0 ∧ k + 3 < L
              · rw [if_pos hg0, if_pos (by omega), if_pos hg0, hrem,
                  if_neg (by omega), if_neg (by omega)]
              · rw [if_neg hg0]
                by_cases hg2 : (o - 1) % 4 = 2 ∧ k + 1 < L
                · have ho : 3 ≤ o := by omega
                  rw [if_pos hg2, if_pos (by omega), if_neg hg0, if_pos hg2, hrem,
                    if_neg (by omega), if_neg (by omega)]
                · rw [if_neg hg2, if_pos (by omega), if_neg hg0, if_neg hg2, hrem,
                    if_neg (by omega), if_neg (by omega)]
            · rw [if_neg hq, if_neg (by omega), hrem, if_neg (by omega), if_neg (by omega)]
          · -- k beyond the buffer: nothing changes
            rw [if_neg (by omega), if_neg (by omega), hrem,
              if_neg (by omega), if_neg (by omega)]

/-- The index pairs swapped by the single-pixel inner loop (in order). -/
def innerSwapsF : Nat → Nat → Nat → List (Nat × Nat)
  | 0, _, _ => []
  | f + 1, i, e => if i + 3 < e then (i, i + 2) :: innerSwapsF f (i + 4) e else []

/-- The index pairs swapped by the whole channel reorder (in order). -/
def rowSwaps (len : Nat) : Nat → Nat → Nat → List (Nat × Nat)
  | 0, _, _ => []
  | r + 1, pos, w =>
      if pos ≥ len then []
      else innerSwapsF (min (pos + 1 + w * 4) len) (pos + 1) (min (pos + 1 + w * 4) len) ++
        rowSwaps len r (min (pos + 1 + w * 4) len) w

/-- Replay a list of swaps over a buffer. -/
def applySwaps (l : List Nat) (ps : List (Nat × Nat)) : List Nat :=
  ps.foldl (fun a p => swapIdx a p.1 p.2) l

theorem applySwaps_append (l : List Nat) (ps qs : List (Nat × Nat)) :
    applySwaps l (ps ++ qs) = applySwaps (applySwaps l ps) qs :=
  List.foldl_append _ _ _ _

theorem applySwaps_length (ps : List (Nat × Nat)) : ∀ l, (applySwaps l ps).length = l.length := by
  induction ps with
  | nil => intro l; rfl
  | cons p ps ih =>
      intro l
      show (applySwaps (swapIdx l p.1 p.2) ps).length = l.length
      rw [ih, swapIdx_length]

theorem innerRemF_eq_applySwaps (f : Nat) : ∀ l i e,
    innerRemF f l i e = applySwaps l (innerSwapsF f i e) := by
  induction f with
  | zero => intro l i e; rfl
  | succ f ih =>
      intro l i e
      unfold innerRemF innerSwapsF
      split
      · exact ih _ _ _
      · rfl

theorem rowLoopRef_eq_applySwaps (w : Nat) : ∀ rows l pos,
    rowLoopRef rows l pos w = applySwaps l (rowSwaps l.length rows pos w) := by
  intro rows
  induction rows with
  | zero => intro l pos; rfl
  | succ r ih =>
      intro l pos
      unfold rowLoopRef rowSwaps
      split
      · rfl
      · rw [applySwaps_append, ← innerRemF_eq_applySwaps, ih, innerRemF_length]

theorem innerSwapsF_bounds (f : Nat) : ∀ i e p, p ∈ innerSwapsF f i e →
    p.1 + 3 < e ∧ p.2 + 1 < e := by
  induction f with
  | zero => intro i e p hp; cases hp
  | succ f ih =>
      intro i e p hp
      unfold innerSwapsF at hp
      split at hp
      · rcases List.mem_cons.mp hp with h | h
        · subst h
          constructor <;> omega
        · exact ih _ _ _ h
      · cases hp

theorem rowSwaps_bounds (len w : Nat) : ∀ rows pos p, p ∈ rowSwaps len rows pos w →
    p.1 < len ∧ p.2 < len := by
  intro rows
  induction rows with
  | zero => intro pos p hp; cases hp
  | succ r ih =>
      intro pos p hp
      unfold rowSwaps at hp
      split at hp
      · cases hp
      · rcases List.mem_append.mp hp with h | h
        · have := innerSwapsF_bounds _ _ _ _ h
          have hm : min (pos + 1 + w * 4) len ≤ len := Nat.min_le_right _ _
          omega
        · exact ih _ _ h

/-- `k` is the byte-0 or byte-2 position of a complete 4-byte pixel group of
one of the `h` rows of width `1 + 4w` (at buffer length `len`): exactly the
positions the channel reorder may modify. -/
def inCompleteGroup (len w h k : Nat) : Prop :=
  k / (1 + w * 4) < h ∧ k % (1 + w * 4) ≠ 0 ∧
    ((k % (1 + w * 4) - 1) % 4 = 0 ∨ (k % (1 + w * 4) - 1) % 4 = 2) ∧
    k - (k % (1 + w * 4) - 1) % 4 + 3 < len

/-- `is_cgbi_png(data)` from the source: false for buffers shorter than 20
bytes or without the PNG signature, otherwise true iff bytes 12..16 equal
the `CgBI` tag. -/
def is_cgbi_png (data : List Nat) : Bool :=
  if data.length < 20 ∨ byteSlice data 0 8 ≠ pngHeader then false
  else decide (byteSlice data 12 16 = cgbiTag)

/-- The destination-buffer size `(width * height * 4 + height) as usize`
computed in `u32` arithmetic (wrapping at `2^32`) in `normalize_idat`. -/
def idatBufSize (width height : Nat) : Nat :=
  (width * height * 4 + height) % 2^32

/-- `normalize_idat(compressed, width, height)` from the source,
parameterized by the external raw-inflate `infl` (`none` models a
decompression error) and zlib-compress `defl`. The decompression loop
writes into a buffer of `idatBufSize` bytes and truncates to the bytes
actually produced; then channels are swapped and the result recompressed. -/
def normalize_idat (infl : List Nat → Option (List Nat)) (defl : List Nat → List Nat)
    (compressed : List Nat) (width height : Nat) : Except String (List Nat) :=
  match infl compressed with
  | none => Except.error "Decompression error"
  | some dec =>
      Except.ok (defl (swap_rgb_channels_optimized (dec.take (idatBufSize width height)) width height))

/-- The chunk-parsing `while` loop of `normalize_cgbi_png`, fuel-indexed
(one fuel per chunk; any fuel `≥ data.length - pos` computes the loop
exactly, since each iteration advances `pos` by at least 12).
Arguments after the fuel: current position, accumulated output, accumulated
IDAT payload, recorded width and height. `none` models the Rust panic on
reading `chunk_data[0..8]` from an IHDR payload shorter than 8 bytes. -/
def normLoopF (infl : List Nat → Option (List Nat)) (defl : List Nat → List Nat)
    (data : List Nat) :
    Nat → Nat → List Nat → List Nat → Nat → Nat → Option (Except String (List Nat))
  | 0, _, result, _, _, _ => some (Except.ok result)
  | f + 1, pos, result, idat, width, height =>
      if pos < data.length then
        if pos + 12 > data.length then some (Except.ok result)
        else
          let len := be32 (byteSlice data pos (pos + 4))
          let ctype := byteSlice data (pos + 4) (pos + 8)
          let cend := pos + 8 + len
          if cend + 4 > data.length then some (Except.ok result)
          else
            let cdata := byteSlice data (pos + 8) cend
            if ctype = ihdrTag then
              if cdata.length < 8 then none
              else normLoopF infl defl data f (cend + 4) (writeChunk result ihdrTag cdata) idat
                (be32 (byteSlice cdata 0 4)) (be32 (byteSlice cdata 4 8))
            else if ctype = idatTag then
              normLoopF infl defl data f (cend + 4) result (idat ++ cdata) width height
            else if ctype = cgbiTag then
              normLoopF infl defl data f (cend + 4) result idat width height
            else if ctype = iendTag then
              if idat ≠ [] ∧ 0 < width ∧ 0 < height then
                match normalize_idat infl defl idat width height with
                | Except.error er => some (Except.error er)
                | Except.ok nd =>
                    some (Except.ok (writeChunk (writeChunk result idatTag nd) iendTag []))
              else some (Except.ok (writeChunk result iendTag []))
            else normLoopF infl defl data f (cend + 4) (writeChunk result ctype cdata) idat width height
      else some (Except.ok result)

/-- `normalize_cgbi_png(data)` from the source: reject buffers without a
valid PNG header, pass non-CgBI buffers through unchanged, otherwise parse
the chunk stream and rebuild the file. -/
def normalize_cgbi_png (infl : List Nat → Option (List Nat)) (defl : List Nat → List Nat)
    (data : List Nat) : Option (Except String (List Nat)) :=
  if data.length < 20 ∨ byteSlice data 0 8 ≠ pngHeader then
    some (Except.error "Invalid PNG header")
  else if is_cgbi_png data = false then some (Except.ok data)
  else normLoopF infl defl data data.length 8 pngHeader [] 0 0

/-- Modelled from the spec (§4.2, §7): the bytes the parse loop emits up to
a truncation stop, starting at `pos`. Returns `none` if the loop would
instead reach a terminal chunk or panic on a short header payload, so
`truncEmitF … = some rest` states both that the stream is truncated and
that the loop runs to the truncation point without incident. -/
def truncEmitF (data : List Nat) : Nat → Nat → Option (List Nat)
  | 0, _ => some []
  | f + 1, pos =>
      if pos < data.length then
        if pos + 12 > data.length then some []
        else
          let len := be32 (byteSlice data pos (pos + 4))
          let ctype := byteSlice data (pos + 4) (pos + 8)
          let cend := pos + 8 + len
          if cend + 4 > data.length then some []
          else
            let cdata := byteSlice data (pos + 8) cend
            if ctype = ihdrTag then
              if cdata.length < 8 then none
              else (truncEmitF data f (cend + 4)).map (chunkBytes ihdrTag cdata ++ ·)
            else if ctype = idatTag then truncEmitF data f (cend + 4)
            else if ctype = cgbiTag then truncEmitF data f (cend + 4)
            else if ctype = iendTag then none
            else (truncEmitF data f (cend + 4)).map (chunkBytes ctype cdata ++ ·)
      else some []

/-- A plain chunk-stream reader (length, type, payload, stored CRC per
chunk), used to state properties of the normalizer's output buffer. -/
def readChunksF (data : List Nat) : Nat → Nat → List (List Nat × List Nat × List Nat)
  | 0, _ => []
  | f + 1, pos =>
      if pos + 12 > data.length then []
      else
        let len := be32 (byteSlice data pos (pos + 4))
        let cend := pos + 8 + len
        if cend + 4 > data.length then []
        else
          (byteSlice data (pos + 4) (pos + 8), byteSlice data (pos + 8) cend,
            byteSlice data cend (cend + 4)) :: readChunksF data f (cend + 4)

/-- All chunks of a buffer, read from byte offset 8 (after the signature). -/
def listChunks (data : List Nat) : List (List Nat × List Nat × List Nat) :=
  readChunksF data data.length 8

theorem u32be_length (n : Nat) : (u32be n).length = 4 := rfl

theorem chunkBytes_length (t d : List Nat) (ht : t.length = 4) :
    (chunkBytes t d).length = 12 + d.length := by
  simp [chunkBytes, u32be, ht]
  omega

theorem be32_u32be (n : Nat) : be32 (u32be n) = n % 2^32 := by
  simp only [be32, u32be, List.foldl]
  omega

theorem byteSlice_shift (a b : List Nat) (s e : Nat) :
    byteSlice (a ++ b) (a.length + s) (a.length + e) = byteSlice b s e := by
  unfold byteSlice
  rw [List.drop_append]
  congr 1
  omega

theorem readChunksF_step (pre t d rest : List Nat) (f : Nat) (ht : t.length = 4)
    (hd : d.length < 2^32) :
    readChunksF (pre ++ (chunkBytes t d ++ rest)) (f + 1) pre.length
      = (t, d, u32be (crc32 t d)) ::
        readChunksF (pre ++ (chunkBytes t d ++ rest)) f (pre.length + (12 + d.length)) := by
  have hlen : (pre ++ (chunkBytes t d ++ rest)).length
      = pre.length + (12 + d.length) + rest.length := by
    simp [chunkBytes_length t d ht]
    omega
  have hs0 : byteSlice (pre ++ (chunkBytes t d ++ rest)) pre.length (pre.length + 4)
      = u32be (d.length % 2^32) := by
    have := byteSlice_shift pre (chunkBytes t d ++ rest) 0 4
    rw [Nat.add_zero] at this
    rw [this]
    unfold byteSlice chunkBytes
    rw [List.drop_zero, List.append_assoc, List.append_assoc]
    exact List.take_left' (u32be_length _)
  have hlen4 : be32 (byteSlice (pre ++ (chunkBytes t d ++ rest)) pre.length (pre.length + 4))
      = d.length := by
    rw [hs0, be32_u32be]
    omega
  have hs1 : byteSlice (pre ++ (chunkBytes t d ++ rest)) (pre.length + 4) (pre.length + 8)
      = t := by
    rw [byteSlice_shift]
    unfold byteSlice
    rw [show chunkBytes t d ++ rest
        = u32be (d.length % 2^32) ++ (t ++ (d ++ (u32be (crc32 t d) ++ rest))) by
      simp [chunkBytes, List.append_assoc]]
    rw [List.drop_left' (u32be_length _)]
    exact List.take_left' (by omega)
  have hs2 : byteSlice (pre ++ (chunkBytes t d ++ rest)) (pre.length + 8)
      (pre.length + 8 + d.length) = d := by
    rw [show pre.length + 8 + d.length = pre.length + (8 + d.length) by omega, byteSlice_shift]
    unfold byteSlice chunkBytes
    rw [show u32be (d.length % 2^32) ++ t ++ d ++ u32be (crc32 t d) ++ rest
        = (u32be (d.length % 2^32) ++ t) ++ (d ++ (u32be (crc32 t d) ++ rest)) by
      simp [List.append_assoc]]
    rw [List.drop_left' (by simp [u32be_length, ht]), show 8 + d.length - 8 = d.length by omega,
      List.take_left' rfl]
  have hs3 : byteSlice (pre ++ (chunkBytes t d ++ rest)) (pre.length + (8 + d.length))
      (pre.length + (8 + d.length + 4)) = u32be (crc32 t d) := by
    rw [byteSlice_shift]
    unfold byteSlice chunkBytes
    rw [show u32be (d.length % 2^32) ++ t ++ d ++ u32be (crc32 t d) ++ rest
        = (u32be (d.length % 2^32) ++ t ++ d) ++ (u32be (crc32 t d) ++ rest) by
      simp [List.append_assoc]]
    rw [List.drop_left' (by simp [u32be_length, ht]; omega),
      show 8 + d.length + 4 - (8 + d.length) = 4 by omega, List.take_left' (u32be_length _)]
  simp only [readChunksF]
  rw [hlen4]
  rw [if_neg (by omega)]
  rw [if_neg (by omega)]
  rw [hs1]
  rw [show pre.length + 8 + d.length = pre.length + (8 + d.length) by omega] at hs2 ⊢
  rw [hs2]
  rw [show pre.length + (8 + d.length) + 4 = pre.length + (8 + d.length + 4) by omega, hs3]
  rw [show pre.length + (8 + d.length + 4) = pre.length + (12 + d.length) by omega]

theorem renderChunks_cons (t d : List Nat) (cs : List (List Nat × List Nat)) :
    renderChunks ((t, d) :: cs) = chunkBytes t d ++ renderChunks cs := by
  simp [renderChunks]

theorem readChunksF_render (cs : List (List Nat × List Nat)) :
    ∀ f (pre : List Nat), (∀ p ∈ cs, p.1.length = 4 ∧ p.2.length < 2^32) → cs.length ≤ f →
    readChunksF (pre ++ renderChunks cs) f pre.length
      = cs.map (fun p => (p.1, p.2, u32be (crc32 p.1 p.2))) := by
  induction cs with
  | nil =>
      intro f pre _ _
      match f with
      | 0 => rfl
      | f + 1 =>
          simp only [readChunksF]
          rw [if_pos (by simp [renderChunks])]
          rfl
  | cons p cs ih =>
      intro f pre hwf hf
      match f with
      | f + 1 =>
        obtain ⟨t, d⟩ := p
        have hp := hwf (t, d) (List.mem_cons_self _ _)
        rw [renderChunks_cons, readChunksF_step pre t d (renderChunks cs) f hp.1 hp.2]
        have hassoc : pre ++ (chunkBytes t d ++ renderChunks cs)
            = (pre ++ chunkBytes t d) ++ renderChunks cs := by
          simp [List.append_assoc]
        have hplen : (pre ++ chunkBytes t d).length = pre.length + (12 + d.length) := by
          simp [chunkBytes_length t d hp.1]
        rw [hassoc, ← hplen, ih f (pre ++ chunkBytes t d)
          (fun q hq => hwf q (List.mem_cons_of_mem _ hq)) (by simpa using hf)]
        rfl

theorem renderChunks_snoc (cs : List (List Nat × List Nat)) (t d : List Nat) :
    renderChunks (cs ++ [(t, d)]) = renderChunks cs ++ chunkBytes t d := by
  simp [renderChunks]

theorem writeChunk_render (pre : List Nat) (cs : List (List Nat × List Nat)) (t d : List Nat)
    (h : pre = pngHeader ++ renderChunks cs) :
    writeChunk pre t d = pngHeader ++ renderChunks (cs ++ [(t, d)]) := by
  rw [writeChunk, h, renderChunks_snoc, List.append_assoc]

/-- Invariant of the parse loop: if the accumulated output is the signature
followed by rendered chunks, so is every `Ok` result of the loop. -/
theorem normLoopF_built (infl : List Nat → Option (List Nat)) (defl : List Nat → List Nat)
    (data : List Nat) : ∀ f pos res idat width height out,
    normLoopF infl defl data f pos res idat width height = some (Except.ok out) →
    (∃ cs, res = pngHeader ++ renderChunks cs) → ∃ cs, out = pngHeader ++ renderChunks cs := by
  intro f
  induction f with
  | zero =>
      intro pos res idat width height out hcall hres
      obtain rfl : res = out := by
        simpa [normLoopF] using hcall
      exact hres
  | succ f ih =>
      intro pos res idat width height out hcall hres
      obtain ⟨cs, rfl⟩ := hres
      simp only [normLoopF] at hcall
      split at hcall
      · split at hcall
        · exact ⟨cs, (Option.some.inj hcall |> Except.ok.inj).symm⟩
        · split at hcall
          · exact ⟨cs, (Option.some.inj hcall |> Except.ok.inj).symm⟩
          · split at hcall
            · split at hcall
              · exact absurd hcall (by simp)
              · exact ih _ _ _ _ _ _ hcall ⟨_, writeChunk_render _ cs _ _ rfl⟩
            · split at hcall
              · exact ih _ _ _ _ _ _ hcall ⟨cs, rfl⟩
              · split at hcall
                · exact ih _ _ _ _ _ _ hcall ⟨cs, rfl⟩
                · split at hcall
                  · split at hcall
                    · split at hcall
                      · exact absurd hcall (by simp)
                      · next nd hnd =>
                          refine ⟨(cs ++ [(idatTag, nd)]) ++ [(iendTag, [])], ?_⟩
                          rw [← (Option.some.inj hcall |> Except.ok.inj)]
                          rw [writeChunk_render _ (cs ++ [(idatTag, nd)]) _ _
                            (writeChunk_render _ cs _ _ rfl)]
                    · exact ⟨cs ++ [(iendTag, [])],
                        (Option.some.inj hcall |> Except.ok.inj).symm.trans
                          (writeChunk_render _ cs _ _ rfl)⟩
                  · exact ih _ _ _ _ _ _ hcall ⟨_, writeChunk_render _ cs _ _ rfl⟩
      · exact ⟨cs, (Option.some.inj hcall |> Except.ok.inj).symm⟩

/-- On a truncated stream the parse loop returns `Ok` with exactly the
already-written chunks appended to the accumulated output. -/
theorem normLoopF_trunc (infl : List Nat → Option (List Nat)) (defl : List Nat → List Nat)
    (data : List Nat) : ∀ f pos res idat width height rest,
    truncEmitF data f pos = some rest →
    normLoopF infl defl data f pos res idat width height = some (Except.ok (res ++ rest)) := by
  intro f
  induction f with
  | zero =>
      intro pos res idat width height rest htr
      obtain rfl : ([] : List Nat) = rest := Option.some.inj htr
      simp [normLoopF]
  | succ f ih =>
      intro pos res idat width height rest htr
      simp only [truncEmitF] at htr
      simp only [normLoopF]
      by_cases hA : pos < data.length
      · rw [if_pos hA] at htr ⊢
        by_cases hB : pos + 12 > data.length
        · rw [if_pos hB] at htr ⊢
          obtain rfl : ([] : List Nat) = rest := Option.some.inj htr
          simp
        · rw [if_neg hB] at htr ⊢
          by_cases hC : pos + 8 + be32 (byteSlice data pos (pos + 4)) + 4 > data.length
          · rw [if_pos hC] at htr ⊢
            obtain rfl : ([] : List Nat) = rest := Option.some.inj htr
            simp
          · rw [if_neg hC] at htr ⊢
            by_cases hT1 : byteSlice data (pos + 4) (pos + 8) = ihdrTag
            · rw [if_pos hT1] at htr ⊢
              by_cases hD : (byteSlice data (pos + 8)
                  (pos + 8 + be32 (byteSlice data pos (pos + 4)))).length < 8
              · rw [if_pos hD] at htr
                exact absurd htr (by simp)
              · rw [if_neg hD] at htr ⊢
                obtain ⟨rest', hrest', rfl⟩ := Option.map_eq_some'.mp htr
                rw [ih _ _ _ _ _ _ hrest']
                simp [writeChunk, List.append_assoc]
            · rw [if_neg hT1] at htr ⊢
              by_cases hT2 : byteSlice data (pos + 4) (pos + 8) = idatTag
              · rw [if_pos hT2] at htr ⊢
                exact ih _ _ _ _ _ _ htr
              · rw [if_neg hT2] at htr ⊢
                by_cases hT3 : byteSlice data (pos + 4) (pos + 8) = cgbiTag
                · rw [if_pos hT3] at htr ⊢
                  exact ih _ _ _ _ _ _ htr
                · rw [if_neg hT3] at htr ⊢
                  by_cases hT4 : byteSlice data (pos + 4) (pos + 8) = iendTag
                  · rw [if_pos hT4] at htr
                    exact absurd htr (by simp)
                  · rw [if_neg hT4] at htr ⊢
                    obtain ⟨rest', hrest', rfl⟩ := Option.map_eq_some'.mp htr
                    rw [ih _ _ _ _ _ _ hrest']
                    simp [writeChunk, List.append_assoc]
      · rw [if_neg hA] at htr ⊢
        obtain rfl : ([] : List Nat) = rest := Option.some.inj htr
        simp

theorem chunkAt_len (pre t d rest : List Nat) (ht : t.length = 4) (hd : d.length < 2^32) :
    be32 (byteSlice (pre ++ (chunkBytes t d ++ rest)) pre.length (pre.length + 4))
      = d.length := by
  have hs0 : byteSlice (pre ++ (chunkBytes t d ++ rest)) pre.length (pre.length + 4)
      = u32be (d.length % 2^32) := by
    have h := byteSlice_shift pre (chunkBytes t d ++ rest) 0 4
    rw [Nat.add_zero] at h
    rw [h]
    unfold byteSlice chunkBytes
    rw [List.drop_zero, List.append_assoc, List.append_assoc]
    exact List.take_left' (u32be_length _)
  rw [hs0, be32_u32be]
  omega

theorem chunkAt_type (pre t d rest : List Nat) (ht : t.length = 4) :
    byteSlice (pre ++ (chunkBytes t d ++ rest)) (pre.length + 4) (pre.length + 8) = t := by
  rw [byteSlice_shift]
  unfold byteSlice
  rw [show chunkBytes t d ++ rest
      = u32be (d.length % 2^32) ++ (t ++ (d ++ (u32be (crc32 t d) ++ rest))) by
    simp [chunkBytes, List.append_assoc]]
  rw [List.drop_left' (u32be_length _)]
  exact List.take_left' (by omega)

theorem chunkAt_data (pre t d rest : List Nat) (ht : t.length = 4) :
    byteSlice (pre ++ (chunkBytes t d ++ rest)) (pre.length + 8) (pre.length + (8 + d.length))
      = d := by
  rw [show pre.length + 8 = pre.length + 8 + 0 by omega,
    show pre.length + (8 + d.length) = pre.length + 8 + d.length by omega]
  have h := byteSlice_shift (pre ++ (u32be (d.length % 2^32) ++ t)) (d ++ (u32be (crc32 t d) ++ rest)) 0 d.length
  rw [show (pre ++ (u32be (d.length % 2^32) ++ t)).length = pre.length + 8 by
      simp [u32be_length, ht]] at h
  rw [show pre ++ (chunkBytes t d ++ rest)
      = (pre ++ (u32be (d.length % 2^32) ++ t)) ++ (d ++ (u32be (crc32 t d) ++ rest)) by
    simp [chunkBytes, List.append_assoc], h]
  unfold byteSlice
  rw [List.drop_zero, Nat.sub_zero]
  exact List.take_left' rfl

theorem chunk_total_length (pre t d rest : List Nat) (ht : t.length = 4) :
    (pre ++ (chunkBytes t d ++ rest)).length = pre.length + (12 + d.length) + rest.length := by
  simp [chunkBytes_length t d ht]
  omega

theorem normLoopF_step_skip (infl : List Nat → Option (List Nat)) (defl : List Nat → List Nat)
    (pre d rest res idat : List Nat) (f width height : Nat) (hd : d.length < 2^32) :
    normLoopF infl defl (pre ++ (chunkBytes cgbiTag d ++ rest)) (f + 1) pre.length
        res idat width height
      = normLoopF infl defl (pre ++ (chunkBytes cgbiTag d ++ rest)) f
        (pre.length + (12 + d.length)) res idat width height := by
  have hlen := chunk_total_length pre cgbiTag d rest rfl
  have hty := chunkAt_type pre cgbiTag d rest rfl
  simp only [normLoopF]
  rw [chunkAt_len pre cgbiTag d rest rfl hd, hty]
  rw [if_pos (by omega), if_neg (by omega), if_neg (by omega),
    if_neg (by decide), if_neg (by decide), if_pos rfl,
    show pre.length + 8 + d.length + 4 = pre.length + (12 + d.length) by omega]

theorem normLoopF_step_idat (infl : List Nat → Option (List Nat)) (defl : List Nat → List Nat)
    (pre d rest res idat : List Nat) (f width height : Nat) (hd : d.length < 2^32) :
    normLoopF infl defl (pre ++ (chunkBytes idatTag d ++ rest)) (f + 1) pre.length
        res idat width height
      = normLoopF infl defl (pre ++ (chunkBytes idatTag d ++ rest)) f
        (pre.length + (12 + d.length)) res (idat ++ d) width height := by
  have hlen := chunk_total_length pre idatTag d rest rfl
  have hty := chunkAt_type pre idatTag d rest rfl
  have hdat := chunkAt_data pre idatTag d rest rfl
  simp only [normLoopF]
  rw [chunkAt_len pre idatTag d rest rfl hd, hty]
  rw [if_pos (by omega), if_neg (by omega), if_neg (by omega),
    if_neg (by decide), if_pos rfl,
    show pre.length + (8 + d.length) = pre.length + 8 + d.length from by omega] at *
  rw [hdat, show pre.length + 8 + d.length + 4 = pre.length + (12 + d.length) by omega]

theorem normLoopF_step_ihdr (infl : List Nat → Option (List Nat)) (defl : List Nat → List Nat)
    (pre d rest res idat : List Nat) (f width height : Nat) (hd : d.length < 2^32)
    (hd8 : 8 ≤ d.length) :
    normLoopF infl defl (pre ++ (chunkBytes ihdrTag d ++ rest)) (f + 1) pre.length
        res idat width height
      = normLoopF infl defl (pre ++ (chunkBytes ihdrTag d ++ rest)) f
        (pre.length + (12 + d.length)) (writeChunk res ihdrTag d) idat
        (be32 (byteSlice d 0 4)) (be32 (byteSlice d 4 8)) := by
  have hlen := chunk_total_length pre ihdrTag d rest rfl
  have hty := chunkAt_type pre ihdrTag d rest rfl
  have hdat := chunkAt_data pre ihdrTag d rest rfl
  simp only [normLoopF]
  rw [chunkAt_len pre ihdrTag d rest rfl hd, hty]
  rw [show pre.length + (8 + d.length) = pre.length + 8 + d.length from by omega] at hdat
  rw [if_pos (by omega), if_neg (by omega), if_neg (by omega), if_pos rfl, hdat,
    if_neg (by omega),
    show pre.length + 8 + d.length + 4 = pre.length + (12 + d.length) by omega]

theorem normLoopF_step_iend (infl : List Nat → Option (List Nat)) (defl : List Nat → List Nat)
    (pre rest res idat : List Nat) (f width height : Nat) :
    normLoopF infl defl (pre ++ (chunkBytes iendTag [] ++ rest)) (f + 1) pre.length
        res idat width height
      = if idat ≠ [] ∧ 0 < width ∧ 0 < height then
          match normalize_idat infl defl idat width height with
          | Except.error er => some (Except.error er)
          | Except.ok nd => some (Except.ok (writeChunk (writeChunk res idatTag nd) iendTag []))
        else some (Except.ok (writeChunk res iendTag [])) := by
  have hlen := chunk_total_length pre iendTag [] rest rfl
  have hty := chunkAt_type pre iendTag [] rest rfl
  have hlen12 : (pre ++ (chunkBytes iendTag [] ++ rest)).length
      = pre.length + 12 + rest.length := by
    rw [hlen]
    simp
  simp only [normLoopF]
  rw [chunkAt_len pre iendTag [] rest rfl (by decide), hty]
  rw [if_pos (by omega), if_neg (by omega), if_neg (by omega), if_neg (by decide),
    if_neg (by decide), if_neg (by decide), if_pos rfl]

theorem is_cgbi_png_header (data : List Nat) (h : is_cgbi_png data = true) :
    ¬(data.length < 20 ∨ byteSlice data 0 8 ≠ pngHeader) := by
  intro hc
  unfold is_cgbi_png at h
  rw [if_pos hc] at h
  cases h

instance (len w h k : Nat) : Decidable (inCompleteGroup len w h k) := by
  unfold inCompleteGroup
  exact inferInstance

/-- C6: `is_cgbi_png b` is true iff `b` has at least 20 bytes, begins with
the 8-byte PNG signature, and bytes 12..16 equal the `CgBI` tag; in
particular it is false for every buffer shorter than 20 bytes. (The model
is a pure function, so it has no side effects.) -/
theorem c6_detector_correct (b : List Nat) :
    (is_cgbi_png b = true ↔
      20 ≤ b.length ∧ b.take 8 = pngHeader ∧ byteSlice b 12 16 = cgbiTag) ∧
    (b.length < 20 → is_cgbi_png b = false) := by
  have hslice : byteSlice b 0 8 = b.take 8 := rfl
  constructor
  · unfold is_cgbi_png
    by_cases h : b.length < 20 ∨ byteSlice b 0 8 ≠ pngHeader
    · rw [if_pos h]
      simp only [Bool.false_eq_true, false_iff]
      rintro ⟨h1, h2, _⟩
      rw [hslice] at h
      rcases h with h | h
      · omega
      · exact h h2
    · rw [if_neg h]
      push_neg at h
      rw [hslice] at h
      simp only [decide_eq_true_eq]
      exact ⟨fun hc => ⟨by omega, h.2, hc⟩, fun hc => hc.2.2⟩
  · intro hlen
    unfold is_cgbi_png
    rw [if_pos (Or.inl hlen)]

theorem c6_witness :
    is_cgbi_png [0x89, 0x50, 0x4E, 0x47, 0x0D, 0x0A, 0x1A, 0x0A,
      0, 0, 0, 4, 0x43, 0x67, 0x42, 0x49, 0, 0, 0, 0] = true ∧
    is_cgbi_png [1, 2, 3] = false :=
  ⟨(c6_detector_correct _).1.mpr (by decide), (c6_detector_correct _).2 (by decide)⟩

/-- C5: a buffer of at least 20 bytes that starts with the PNG signature
and whose chunk type tag at bytes 12..16 (the spec's "second chunk", the
one the detector inspects) is not the vendor marker passes through
`normalize_cgbi_png` unchanged. -/
theorem c5_passthrough (infl : List Nat → Option (List Nat)) (defl : List Nat → List Nat)
    (data : List Nat) (h20 : 20 ≤ data.length) (hsig : data.take 8 = pngHeader)
    (hnot : byteSlice data 12 16 ≠ cgbiTag) :
    normalize_cgbi_png infl defl data = some (Except.ok data) := by
  have hcond : ¬(data.length < 20 ∨ byteSlice data 0 8 ≠ pngHeader) := by
    push_neg
    exact ⟨by omega, hsig⟩
  unfold normalize_cgbi_png
  rw [if_neg hcond]
  have hfalse : is_cgbi_png data = false := by
    unfold is_cgbi_png
    rw [if_neg hcond]
    simp [hnot]
  rw [hfalse, if_pos rfl]

theorem c5_witness :
    normalize_cgbi_png (fun _ => none) (fun x => x)
        [0x89, 0x50, 0x4E, 0x47, 0x0D, 0x0A, 0x1A, 0x0A,
          0, 0, 0, 1, 0x49, 0x48, 0x44, 0x52, 0, 1, 2, 3, 4]
      = some (Except.ok [0x89, 0x50, 0x4E, 0x47, 0x0D, 0x0A, 0x1A, 0x0A,
          0, 0, 0, 1, 0x49, 0x48, 0x44, 0x52, 0, 1, 2, 3, 4]) :=
  c5_passthrough _ _ _ (by decide) (by decide) (by decide)

/-- C3: the batched (four-pixels-per-step) channel reorder of the source
computes exactly the same buffer as the straightforward one-pixel-at-a-time
reference implementation, for every buffer, width and height. -/
theorem c3_batching_refines_reference (l : List Nat) (width height : Nat) :
    swap_rgb_channels_optimized l width height = swap_rgb_channels_ref l width height :=
  rowLoop_eq_rowLoopRef width height l 0

theorem mul_add_div_lt (r c W : Nat) (hW : 0 < W) (hc : c < W) : (r * W + c) / W = r := by
  rw [Nat.mul_comm, Nat.mul_add_div hW, Nat.div_eq_of_lt hc, Nat.add_zero]

theorem mul_add_mod_lt (r c W : Nat) (hc : c < W) : (r * W + c) % W = c := by
  rw [Nat.mul_comm, Nat.mul_add_mod, Nat.mod_eq_of_lt hc]

/-- The channel reorder, described pointwise from buffer offset 0. -/
theorem swapOpt_getD (l : List Nat) (width height k : Nat) :
    (swap_rgb_channels_optimized l width height).getD k 0 =
      if k < l.length ∧ k / (1 + width * 4) < height ∧ k % (1 + width * 4) ≠ 0 then
        if (k % (1 + width * 4) - 1) % 4 = 0 ∧ k + 3 < l.length then l.getD (k + 2) 0
        else if (k % (1 + width * 4) - 1) % 4 = 2 ∧ k + 1 < l.length then l.getD (k - 2) 0
        else l.getD k 0
      else l.getD k 0 := by
  rw [show swap_rgb_channels_optimized l width height = rowLoopRef height l 0 width from
    rowLoop_eq_rowLoopRef _ _ _ _, rowLoopRef_getD]
  simp only [Nat.sub_zero]
  by_cases hc : k < l.length ∧ k / (1 + width * 4) < height ∧ k % (1 + width * 4) ≠ 0
  · rw [if_pos ⟨Nat.zero_le k, hc⟩, if_pos hc]
  · rw [if_neg (fun hcc => hc hcc.2), if_neg hc]

/-- C2: on a buffer of exactly `height` rows of `1 + width*4` bytes, the
channel reorder swaps byte offsets 0 and 2 of every 4-byte pixel group of
every row and leaves byte offsets 1 and 3 of every group and each row's
leading filter byte unchanged. -/
theorem c2_swap_every_group (l : List Nat) (width height : Nat)
    (hlen : l.length = height * (1 + width * 4)) (r p : Nat)
    (hr : r < height) (hp : p < width) :
    (swap_rgb_channels_optimized l width height).getD (r * (1 + width * 4)) 0
        = l.getD (r * (1 + width * 4)) 0 ∧
    (swap_rgb_channels_optimized l width height).getD (r * (1 + width * 4) + 1 + 4 * p) 0
        = l.getD (r * (1 + width * 4) + 1 + 4 * p + 2) 0 ∧
    (swap_rgb_channels_optimized l width height).getD (r * (1 + width * 4) + 1 + 4 * p + 1) 0
        = l.getD (r * (1 + width * 4) + 1 + 4 * p + 1) 0 ∧
    (swap_rgb_channels_optimized l width height).getD (r * (1 + width * 4) + 1 + 4 * p + 2) 0
        = l.getD (r * (1 + width * 4) + 1 + 4 * p) 0 ∧
    (swap_rgb_channels_optimized l width height).getD (r * (1 + width * 4) + 1 + 4 * p + 3) 0
        = l.getD (r * (1 + width * 4) + 1 + 4 * p + 3) 0 := by
  have hW : 0 < 1 + width * 4 := by omega
  have hB : r * (1 + width * 4) + (1 + width * 4) ≤ height * (1 + width * 4) := by
    have h := Nat.mul_le_mul_right (1 + width * 4) (show r + 1 ≤ height by omega)
    rwa [Nat.succ_mul] at h
  refine ⟨?_, ?_, ?_, ?_, ?_⟩
  · have key := swapOpt_getD l width height (r * (1 + width * 4))
    rw [Nat.mul_mod_left] at key
    rw [key, if_neg (fun hcc => hcc.2.2 rfl)]
  · have key := swapOpt_getD l width height (r * (1 + width * 4) + 1 + 4 * p)
    rw [show r * (1 + width * 4) + 1 + 4 * p = r * (1 + width * 4) + (1 + 4 * p) from
      by omega] at key ⊢
    rw [mul_add_div_lt _ _ _ hW (by omega), mul_add_mod_lt _ _ _ (by omega)] at key
    rw [key, if_pos ⟨by omega, hr, by omega⟩, if_pos ⟨by omega, by omega⟩]
  · have key := swapOpt_getD l width height (r * (1 + width * 4) + 1 + 4 * p + 1)
    rw [show r * (1 + width * 4) + 1 + 4 * p + 1 = r * (1 + width * 4) + (2 + 4 * p) from
      by omega] at key ⊢
    rw [mul_add_div_lt _ _ _ hW (by omega), mul_add_mod_lt _ _ _ (by omega)] at key
    rw [key, if_pos ⟨by omega, hr, by omega⟩, if_neg (by omega), if_neg (by omega)]
  · have key := swapOpt_getD l width height (r * (1 + width * 4) + 1 + 4 * p + 2)
    rw [show r * (1 + width * 4) + 1 + 4 * p + 2 = r * (1 + width * 4) + (3 + 4 * p) from
      by omega] at key
    rw [show r * (1 + width * 4) + 1 + 4 * p + 2 = r * (1 + width * 4) + (3 + 4 * p) from
      by omega]
    rw [mul_add_div_lt _ _ _ hW (by omega), mul_add_mod_lt _ _ _ (by omega)] at key
    rw [key, if_pos ⟨by omega, hr, by omega⟩, if_neg (by omega), if_pos ⟨by omega, by omega⟩]
    congr 1
    omega
  · have key := swapOpt_getD l width height (r * (1 + width * 4) + 1 + 4 * p + 3)
    rw [show r * (1 + width * 4) + 1 + 4 * p + 3 = r * (1 + width * 4) + (4 + 4 * p) from
      by omega] at key ⊢
    rw [mul_add_div_lt _ _ _ hW (by omega), mul_add_mod_lt _ _ _ (by omega)] at key
    rw [key, if_pos ⟨by omega, hr, by omega⟩, if_neg (by omega), if_neg (by omega)]

theorem c2_witness :
    (swap_rgb_channels_optimized [9, 1, 2, 3, 4, 5, 6, 7, 8] 2 1).getD
        (0 * (1 + 2 * 4) + 1 + 4 * 1) 0
      = [9, 1, 2, 3, 4, 5, 6, 7, 8].getD (0 * (1 + 2 * 4) + 1 + 4 * 1 + 2) 0 :=
  (c2_swap_every_group [9, 1, 2, 3, 4, 5, 6, 7, 8] 2 1 (by decide) 0 1
    (by decide) (by decide)).2.1

/-- C9: the channel reorder never touches an index outside the buffer —
its result replays exactly the swap list `rowSwaps`, and every index of
every swap is in bounds — for every buffer length, width and height (also
when the buffer has no `height` full rows or a partial trailing group);
the buffer length is preserved, and every position that is not the byte-0
or byte-2 slot of a complete 4-byte pixel group keeps its original value. -/
theorem c9_reorder_in_bounds (l : List Nat) (width height : Nat) :
    (swap_rgb_channels_optimized l width height).length = l.length ∧
    swap_rgb_channels_optimized l width height
      = applySwaps l (rowSwaps l.length height 0 width) ∧
    (∀ q ∈ rowSwaps l.length height 0 width, q.1 < l.length ∧ q.2 < l.length) ∧
    (∀ k, k < l.length → ¬ inCompleteGroup l.length width height k →
      (swap_rgb_channels_optimized l width height).getD k 0 = l.getD k 0) := by
  have heq : swap_rgb_channels_optimized l width height = rowLoopRef height l 0 width :=
    rowLoop_eq_rowLoopRef _ _ _ _
  refine ⟨?_, ?_, ?_, ?_⟩
  · rw [heq, rowLoopRef_length]
  · rw [heq, rowLoopRef_eq_applySwaps]
  · exact fun q hq => rowSwaps_bounds l.length width height 0 q hq
  · intro k hk hn
    rw [swapOpt_getD]
    by_cases hc : k < l.length ∧ k / (1 + width * 4) < height ∧ k % (1 + width * 4) ≠ 0
    · obtain ⟨hklen, hdivh, hmodne⟩ := hc
      rw [if_pos ⟨hklen, hdivh, hmodne⟩, if_neg, if_neg]
      · rintro ⟨hg2, hk1⟩
        refine hn ⟨hdivh, hmodne, Or.inr hg2, ?_⟩
        rw [hg2]
        have hle : k % (1 + width * 4) ≤ k := Nat.mod_le _ _
        generalize hgo : k % (1 + width * 4) = o at hg2 hmodne hle
        omega
      · rintro ⟨hg0, hk3⟩
        refine hn ⟨hdivh, hmodne, Or.inl hg0, ?_⟩
        rw [hg0]
        omega
    · rw [if_neg hc]

theorem c9_witness :
    (swap_rgb_channels_optimized [9, 1, 2, 3, 4, 5] 1 1).getD 5 0
      = [9, 1, 2, 3, 4, 5].getD 5 0 :=
  (c9_reorder_in_bounds [9, 1, 2, 3, 4, 5] 1 1).2.2.2 5 (by decide) (by decide)

theorem swapOpt_length (l : List Nat) (width height : Nat) :
    (swap_rgb_channels_optimized l width height).length = l.length := by
  rw [show swap_rgb_channels_optimized l width height = rowLoopRef height l 0 width from
    rowLoop_eq_rowLoopRef _ _ _ _, rowLoopRef_length]

/-- C7, counterexample: the buffer size is computed in `u32` arithmetic, so
for width = height = 65536 the allocation is 65536 bytes, not the value
`width*height*4 + height` of exact unbounded-integer arithmetic. -/
theorem c7_counterexample :
    idatBufSize 65536 65536 = 65536 ∧
    idatBufSize 65536 65536 ≠ 65536 * 65536 * 4 + 65536 := by
  constructor
  · decide
  · decide

/-- C7, amended: when `width*height*4 + height < 2^32` the destination
buffer is allocated with exactly `width*height*4 + height` bytes, and the
rebuilt pixel-data chunk of a well-formed `width`-by-`height` vendor image
(raw-inflating to exactly that many bytes) zlib-decompresses to exactly
`width*height*4 + height` bytes. -/
theorem c7_amended (width height : Nat) (infl inflZ : List Nat → Option (List Nat))
    (defl : List Nat → List Nat) (compressed dec : List Nat)
    (hnof : width * height * 4 + height < 2^32)
    (hinfl : infl compressed = some dec)
    (hdec : dec.length = width * height * 4 + height)
    (hrt : ∀ x, inflZ (defl x) = some x) :
    idatBufSize width height = width * height * 4 + height ∧
    ∃ out, normalize_idat infl defl compressed width height = Except.ok out ∧
      ∃ u, inflZ out = some u ∧ u.length = width * height * 4 + height := by
  have hbuf : idatBufSize width height = width * height * 4 + height :=
    Nat.mod_eq_of_lt hnof
  refine ⟨hbuf,
    defl (swap_rgb_channels_optimized (dec.take (idatBufSize width height)) width height),
    ?_, _, hrt _, ?_⟩
  · unfold normalize_idat
    rw [hinfl]
  · rw [swapOpt_length, List.length_take, hbuf, hdec, Nat.min_self]

theorem c7_witness :
    idatBufSize 1 1 = 1 * 1 * 4 + 1 ∧
    ∃ out, normalize_idat (fun _ => some [0, 10, 20, 30, 255]) (fun x => x) [0] 1 1
        = Except.ok out ∧
      ∃ u, some out = some u ∧ u.length = 1 * 1 * 4 + 1 :=
  c7_amended 1 1 (fun _ => some [0, 10, 20, 30, 255]) some (fun x => x) [0]
    [0, 10, 20, 30, 255] (by decide) rfl (by decide) (fun _ => rfl)

set_option maxRecDepth 100000 in
/-- C4: `write_chunk` appends exactly the 4-byte big-endian payload length,
the type tag, the payload, and the 4-byte big-endian CRC-32 of
`type ++ payload` computed with reversed polynomial `0xEDB88320`, initial
value `0xFFFFFFFF` and final complement; that CRC-32 matches the reference
PNG/zip check values (`crc32("123456789") = 0xCBF43926`,
`crc32("IEND") = 0xAE426082`); and on the rebuild path every byte of the
normalizer's output after the signature belongs to a chunk written this way
(so every CRC is freshly computed, none copied from the input). -/
theorem c4_write_chunk_crc :
    (∀ output chunkType d, writeChunk output chunkType d
      = output ++ (u32be (d.length % 2^32) ++ chunkType ++ d ++ u32be (crc32 chunkType d))) ∧
    crc32 [] [0x31, 0x32, 0x33, 0x34, 0x35, 0x36, 0x37, 0x38, 0x39] = 0xCBF43926 ∧
    crc32 iendTag [] = 0xAE426082 ∧
    (∀ infl defl data out, is_cgbi_png data = true →
      normalize_cgbi_png infl defl data = some (Except.ok out) →
      ∃ cs, out = pngHeader ++ renderChunks cs) := by
  refine ⟨fun output chunkType d => rfl, by decide, by decide, ?_⟩
  intro infl defl data out hcg hn
  unfold normalize_cgbi_png at hn
  rw [if_neg (is_cgbi_png_header data hcg), hcg] at hn
  rw [if_neg (by simp)] at hn
  exact normLoopF_built infl defl data _ _ _ _ _ _ _ hn ⟨[], by simp [renderChunks]⟩

set_option maxRecDepth 100000 in
theorem c4_witness :
    ∃ cs, pngHeader ++ chunkBytes iendTag [] = pngHeader ++ renderChunks cs :=
  c4_write_chunk_crc.2.2.2 (fun _ => none) (fun x => x)
    (pngHeader ++ [0, 0, 0, 0] ++ cgbiTag ++ [0, 0, 0, 0]
      ++ [0, 0, 0, 0] ++ iendTag ++ [0, 0, 0, 0])
    (pngHeader ++ chunkBytes iendTag []) (by decide) (by rfl)

/-- A vendor-variant buffer whose header chunk declares a 0-byte payload:
signature, marker chunk with empty payload, then an `IHDR` chunk with
declared length 0 (total 32 bytes, no terminal chunk). -/
def shortIhdrInput : List Nat :=
  pngHeader ++ [0, 0, 0, 0] ++ cgbiTag ++ [0, 0, 0, 0]
    ++ [0, 0, 0, 0] ++ ihdrTag ++ [0, 0, 0, 0]

/-- `shortIhdrInput` with three trailing garbage bytes, so the stream is
also truncated (3 bytes < 12 remain after the header chunk). -/
def shortIhdrTruncInput : List Nat := shortIhdrInput ++ [0, 0, 0]

/-- C8, counterexample: a vendor-variant input with a truncated chunk
stream on which `normalize_cgbi_png` does not return `Ok` — it panics
(models the out-of-bounds read `chunk_data[0]` on the 0-byte `IHDR`
payload parsed before the truncation point). -/
theorem c8_counterexample :
    is_cgbi_png shortIhdrTruncInput = true ∧
    normalize_cgbi_png (fun _ => none) (fun x => x) shortIhdrTruncInput = none := by
  constructor
  · decide
  · rfl

/-- C8, amended: for every vendor-variant input whose chunk stream is
truncated and in which every header chunk parsed before the truncation
point carries at least 8 payload bytes (`truncEmitF … = some rest` states
exactly that the loop reaches the truncation stop without a terminal chunk
and without a short header payload), `normalize_cgbi_png` terminates with
`Ok`, returning the signature plus exactly the chunks that were fully
parsed and written before the truncation point. -/
theorem c8_truncation_best_effort (infl : List Nat → Option (List Nat))
    (defl : List Nat → List Nat) (data rest : List Nat)
    (hcg : is_cgbi_png data = true)
    (htr : truncEmitF data data.length 8 = some rest) :
    normalize_cgbi_png infl defl data = some (Except.ok (pngHeader ++ rest)) := by
  unfold normalize_cgbi_png
  rw [if_neg (is_cgbi_png_header data hcg), hcg, if_neg (by simp)]
  exact normLoopF_trunc infl defl data data.length 8 pngHeader [] 0 0 rest htr

/-- A vendor-variant buffer with a full 13-byte header chunk followed by
3 trailing garbage bytes (truncated tail, no terminal chunk). -/
def truncOkInput : List Nat :=
  pngHeader ++ [0, 0, 0, 0] ++ cgbiTag ++ [0, 0, 0, 0]
    ++ [0, 0, 0, 13] ++ ihdrTag ++ [0, 0, 0, 1, 0, 0, 0, 1, 8, 6, 0, 0, 0] ++ [0, 0, 0, 0]
    ++ [1, 2, 3]

set_option maxRecDepth 400000 in
theorem c8_witness :
    normalize_cgbi_png (fun _ => none) (fun x => x) truncOkInput
      = some (Except.ok (pngHeader
          ++ chunkBytes ihdrTag [0, 0, 0, 1, 0, 0, 0, 1, 8, 6, 0, 0, 0])) :=
  c8_truncation_best_effort _ _ truncOkInput _ (by decide) (by rfl)

/-- C10: `normalize_cgbi_png` is not total — on a vendor-variant input
whose header chunk passes the truncation check but declares a payload
length (0) shorter than the 8 bytes from which width and height are read,
the Rust code indexes `chunk_data[0..8]` out of bounds and panics
(modelled by `none`) instead of returning `Ok` or `Err`. -/
theorem c10_short_ihdr_panics :
    normalize_cgbi_png (fun _ => none) (fun x => x) shortIhdrInput = none := by
  rfl

/-- The 13-byte `IHDR` payload of a 1-by-1 image: width 1, height 1,
bit depth 8, color type 6 (RGBA), compression 0, filter 0, interlace 0. -/
def ihdrPayloadW1H1 : List Nat := [0, 0, 0, 1, 0, 0, 0, 1, 8, 6, 0, 0, 0]

/-- A raw (headerless) DEFLATE stream — one stored block — that
decompresses to exactly `[0, 10, 20, 30, 255]` (filter byte 0 followed by
one BGRA pixel). -/
def rawDeflate5 : List Nat := [0x01, 0x05, 0x00, 0xFA, 0xFF, 0, 10, 20, 30, 255]

/-- The minimal input with the chunks laid out in the order the claim lists
them: signature, header chunk, marker chunk, pixel-data chunk, terminal
chunk. -/
def specOrderInput : List Nat :=
  pngHeader ++ chunkBytes ihdrTag ihdrPayloadW1H1 ++ chunkBytes cgbiTag []
    ++ chunkBytes idatTag rawDeflate5 ++ chunkBytes iendTag []

/-- The same chunks with the marker chunk placed immediately after the
signature, the position the detector actually inspects (and the layout of
real vendor files); the pixel-data payload is a parameter. -/
def markerFirstInput (c : List Nat) : List Nat :=
  pngHeader ++ chunkBytes cgbiTag [] ++ chunkBytes ihdrTag ihdrPayloadW1H1
    ++ chunkBytes idatTag c ++ chunkBytes iendTag []

/-- C1, counterexample: on the input with the chunk order the claim
describes (header chunk before the marker chunk), the detector sees `IHDR`
at bytes 12..16, so `normalize_cgbi_png` returns the buffer unchanged: the
output still contains the vendor marker chunk (its tag at bytes 37..41)
and no rebuilt pixel-data chunk, contradicting the claimed conclusions. -/
theorem c1_counterexample :
    (fun l => if l = rawDeflate5 then some [0, 10, 20, 30, 255] else none) rawDeflate5
        = some [0, 10, 20, 30, 255] ∧
    normalize_cgbi_png (fun l => if l = rawDeflate5 then some [0, 10, 20, 30, 255] else none)
        (fun x => x) specOrderInput = some (Except.ok specOrderInput) ∧
    byteSlice specOrderInput 37 41 = cgbiTag := by
  refine ⟨by decide, by rfl, by decide⟩

/-- C1, amended: with the marker chunk immediately after the signature
(the position the detector checks; the claim listed it after the header
chunk), `normalize_cgbi_png` on the minimal vendor-variant 1-by-1 input —
whose pixel-data chunk holds any raw-deflate stream `c` inflating to
`[0, 10, 20, 30, 255]` — returns `Ok` with: the signature followed by the
rebuilt header chunk, a single rebuilt pixel-data chunk holding the
recompressed swapped pixels, and the terminal chunk; no marker chunk in
the output; the freshly computed CRC-32 of `type ++ payload` on every
chunk; and a pixel-data payload that zlib-decompresses to exactly
`[0, 30, 20, 10, 255]` (filter byte 0 followed by RGBA). -/
theorem c1_end_to_end (infl inflZ : List Nat → Option (List Nat))
    (defl : List Nat → List Nat) (c : List Nat)
    (hc : infl c = some [0, 10, 20, 30, 255])
    (hcne : c ≠ [])
    (hcl : c.length < 2^32)
    (hrt : ∀ x, inflZ (defl x) = some x)
    (hdl : (defl [0, 30, 20, 10, 255]).length < 2^32) :
    ∃ out, normalize_cgbi_png infl defl (markerFirstInput c) = some (Except.ok out) ∧
      out = pngHeader ++ renderChunks
        [(ihdrTag, ihdrPayloadW1H1), (idatTag, defl [0, 30, 20, 10, 255]), (iendTag, [])] ∧
      listChunks out
        = [(ihdrTag, ihdrPayloadW1H1, u32be (crc32 ihdrTag ihdrPayloadW1H1)),
           (idatTag, defl [0, 30, 20, 10, 255],
             u32be (crc32 idatTag (defl [0, 30, 20, 10, 255]))),
           (iendTag, [], u32be (crc32 iendTag []))] ∧
      (listChunks out).map (fun p => p.1) = [ihdrTag, idatTag, iendTag] ∧
      (∀ p ∈ listChunks out, p.2.2 = u32be (crc32 p.1 p.2.1)) ∧
      inflZ (defl [0, 30, 20, 10, 255]) = some [0, 30, 20, 10, 255] := by
  have hA0 : markerFirstInput c = pngHeader ++ (chunkBytes cgbiTag []
      ++ (chunkBytes ihdrTag ihdrPayloadW1H1
        ++ (chunkBytes idatTag c ++ (chunkBytes iendTag [] ++ [])))) := by
    simp [markerFirstInput, List.append_assoc]
  have hA1 : markerFirstInput c = (pngHeader ++ chunkBytes cgbiTag [])
      ++ (chunkBytes ihdrTag ihdrPayloadW1H1
        ++ (chunkBytes idatTag c ++ (chunkBytes iendTag [] ++ []))) := by
    simp [markerFirstInput, List.append_assoc]
  have hA2 : markerFirstInput c = ((pngHeader ++ chunkBytes cgbiTag [])
      ++ chunkBytes ihdrTag ihdrPayloadW1H1)
      ++ (chunkBytes idatTag c ++ (chunkBytes iendTag [] ++ [])) := by
    simp [markerFirstInput, List.append_assoc]
  have hA3 : markerFirstInput c = (((pngHeader ++ chunkBytes cgbiTag [])
      ++ chunkBytes ihdrTag ihdrPayloadW1H1) ++ chunkBytes idatTag c)
      ++ (chunkBytes iendTag [] ++ []) := by
    simp [markerFirstInput, List.append_assoc]
  have hlen69 : (markerFirstInput c).length = 69 + c.length := by
    rw [hA3]
    simp only [List.length_append, chunkBytes_length cgbiTag [] rfl,
      chunkBytes_length ihdrTag ihdrPayloadW1H1 rfl, chunkBytes_length idatTag c rfl,
      chunkBytes_length iendTag [] rfl,
      show pngHeader.length = 8 from rfl, show ihdrPayloadW1H1.length = 13 from rfl,
      show ([] : List Nat).length = 0 from rfl]
    omega
  have hhdr : ¬((markerFirstInput c).length < 20 ∨
      byteSlice (markerFirstInput c) 0 8 ≠ pngHeader) := by
    push_neg
    refine ⟨by omega, ?_⟩
    show ((markerFirstInput c).drop 0).take (8 - 0) = pngHeader
    rw [List.drop_zero, hA0]
    exact List.take_left' rfl
  have hcg : is_cgbi_png (markerFirstInput c) = true := by
    unfold is_cgbi_png
    rw [if_neg hhdr]
    have h := chunkAt_type pngHeader cgbiTag []
      (chunkBytes ihdrTag ihdrPayloadW1H1
        ++ (chunkBytes idatTag c ++ (chunkBytes iendTag [] ++ []))) rfl
    rw [show pngHeader.length + 4 = 12 from rfl, show pngHeader.length + 8 = 16 from rfl] at h
    rw [hA0, h]
    simp
  have hni : normalize_idat infl defl c 1 1 = Except.ok (defl [0, 30, 20, 10, 255]) := by
    unfold normalize_idat
    rw [hc]
    rfl
  have e1 : normLoopF infl defl (markerFirstInput c) (68 + c.length + 1) 8 pngHeader [] 0 0
      = normLoopF infl defl (markerFirstInput c) (68 + c.length) 20 pngHeader [] 0 0 := by
    have h := normLoopF_step_skip infl defl pngHeader []
      (chunkBytes ihdrTag ihdrPayloadW1H1
        ++ (chunkBytes idatTag c ++ (chunkBytes iendTag [] ++ [])))
      pngHeader [] (68 + c.length) 0 0 (by decide)
    rw [show pngHeader.length = 8 from rfl,
      show (8 : Nat) + (12 + ([] : List Nat).length) = 20 from rfl, ← hA0] at h
    exact h
  have e2 : normLoopF infl defl (markerFirstInput c) (67 + c.length + 1) 20 pngHeader [] 0 0
      = normLoopF infl defl (markerFirstInput c) (67 + c.length) 45
        (writeChunk pngHeader ihdrTag ihdrPayloadW1H1) [] 1 1 := by
    have h := normLoopF_step_ihdr infl defl (pngHeader ++ chunkBytes cgbiTag [])
      ihdrPayloadW1H1 (chunkBytes idatTag c ++ (chunkBytes iendTag [] ++ []))
      pngHeader [] (67 + c.length) 0 0 (by decide) (by decide)
    rw [show (pngHeader ++ chunkBytes cgbiTag []).length = 20 from rfl,
      show (20 : Nat) + (12 + ihdrPayloadW1H1.length) = 45 from rfl,
      show be32 (byteSlice ihdrPayloadW1H1 0 4) = 1 from rfl,
      show be32 (byteSlice ihdrPayloadW1H1 4 8) = 1 from rfl, ← hA1] at h
    exact h
  have e3 : normLoopF infl defl (markerFirstInput c) (66 + c.length + 1) 45
        (writeChunk pngHeader ihdrTag ihdrPayloadW1H1) [] 1 1
      = normLoopF infl defl (markerFirstInput c) (66 + c.length) (57 + c.length)
        (writeChunk pngHeader ihdrTag ihdrPayloadW1H1) c 1 1 := by
    have h := normLoopF_step_idat infl defl
      ((pngHeader ++ chunkBytes cgbiTag []) ++ chunkBytes ihdrTag ihdrPayloadW1H1)
      c (chunkBytes iendTag [] ++ [])
      (writeChunk pngHeader ihdrTag ihdrPayloadW1H1) [] (66 + c.length) 1 1 hcl
    rw [show ((pngHeader ++ chunkBytes cgbiTag [])
        ++ chunkBytes ihdrTag ihdrPayloadW1H1).length = 45 from rfl,
      show (45 : Nat) + (12 + c.length) = 57 + c.length from by omega,
      List.nil_append, ← hA2] at h
    exact h
  have e4 : normLoopF infl defl (markerFirstInput c) (65 + c.length + 1) (57 + c.length)
        (writeChunk pngHeader ihdrTag ihdrPayloadW1H1) c 1 1
      = some (Except.ok (writeChunk (writeChunk
          (writeChunk pngHeader ihdrTag ihdrPayloadW1H1) idatTag
          (defl [0, 30, 20, 10, 255])) iendTag [])) := by
    have h := normLoopF_step_iend infl defl
      (((pngHeader ++ chunkBytes cgbiTag []) ++ chunkBytes ihdrTag ihdrPayloadW1H1)
        ++ chunkBytes idatTag c) []
      (writeChunk pngHeader ihdrTag ihdrPayloadW1H1) c (65 + c.length) 1 1
    have hp3 : ((((pngHeader ++ chunkBytes cgbiTag [])
        ++ chunkBytes ihdrTag ihdrPayloadW1H1) ++ chunkBytes idatTag c)).length
        = 57 + c.length := by
      rw [List.length_append, chunkBytes_length idatTag c rfl,
        show ((pngHeader ++ chunkBytes cgbiTag [])
          ++ chunkBytes ihdrTag ihdrPayloadW1H1).length = 45 from rfl]
      omega
    rw [hp3, ← hA3] at h
    rw [h, if_pos ⟨hcne, Nat.one_pos, Nat.one_pos⟩, hni]
  have hmain : normalize_cgbi_png infl defl (markerFirstInput c)
      = some (Except.ok (writeChunk (writeChunk
          (writeChunk pngHeader ihdrTag ihdrPayloadW1H1) idatTag
          (defl [0, 30, 20, 10, 255])) iendTag [])) := by
    unfold normalize_cgbi_png
    rw [if_neg hhdr, hcg, if_neg (by simp)]
    rw [hlen69, show 69 + c.length = 68 + c.length + 1 from by omega, e1,
      show 68 + c.length = 67 + c.length + 1 from by omega, e2,
      show 67 + c.length = 66 + c.length + 1 from by omega, e3,
      show 66 + c.length = 65 + c.length + 1 from by omega, e4]
  have hout : writeChunk (writeChunk (writeChunk pngHeader ihdrTag ihdrPayloadW1H1)
        idatTag (defl [0, 30, 20, 10, 255])) iendTag []
      = pngHeader ++ renderChunks [(ihdrTag, ihdrPayloadW1H1),
          (idatTag, defl [0, 30, 20, 10, 255]), (iendTag, [])] :=
    writeChunk_render _ [(ihdrTag, ihdrPayloadW1H1), (idatTag, defl [0, 30, 20, 10, 255])]
      iendTag []
      (writeChunk_render _ [(ihdrTag, ihdrPayloadW1H1)] idatTag (defl [0, 30, 20, 10, 255])
        (writeChunk_render _ [] ihdrTag ihdrPayloadW1H1 (by simp [renderChunks])))
  have hw : ∀ p ∈ [(ihdrTag, ihdrPayloadW1H1), (idatTag, defl [0, 30, 20, 10, 255]),
      (iendTag, ([] : List Nat))], p.1.length = 4 ∧ p.2.length < 2^32 := by
    intro p hp
    rcases List.mem_cons.mp hp with rfl | hp
    · exact ⟨rfl, by decide⟩
    rcases List.mem_cons.mp hp with rfl | hp
    · exact ⟨rfl, hdl⟩
    rcases List.mem_cons.mp hp with rfl | hp
    · exact ⟨rfl, by decide⟩
    · cases hp
  have hlist : listChunks (pngHeader ++ renderChunks [(ihdrTag, ihdrPayloadW1H1),
        (idatTag, defl [0, 30, 20, 10, 255]), (iendTag, [])])
      = [(ihdrTag, ihdrPayloadW1H1, u32be (crc32 ihdrTag ihdrPayloadW1H1)),
         (idatTag, defl [0, 30, 20, 10, 255],
           u32be (crc32 idatTag (defl [0, 30, 20, 10, 255]))),
         (iendTag, [], u32be (crc32 iendTag []))] := by
    unfold listChunks
    rw [show (8 : Nat) = pngHeader.length from rfl]
    exact readChunksF_render _ _ pngHeader hw
      (by
        rw [List.length_append]
        have h8 : pngHeader.length = 8 := rfl
        have h3 : ([(ihdrTag, ihdrPayloadW1H1), (idatTag, defl [0, 30, 20, 10, 255]),
          (iendTag, ([] : List Nat))]).length = 3 := rfl
        omega)
  refine ⟨_, hmain, hout, ?_, ?_, ?_, hrt _⟩
  · rw [hout, hlist]
  · rw [hout, hlist]
    rfl
  · intro p hp
    rw [hout, hlist] at hp
    rcases List.mem_cons.mp hp with rfl | hp
    · show u32be (crc32 ihdrTag ihdrPayloadW1H1) = u32be (crc32 ihdrTag ihdrPayloadW1H1)
      rfl
    rcases List.mem_cons.mp hp with rfl | hp
    · show u32be (crc32 idatTag (defl [0, 30, 20, 10, 255]))
        = u32be (crc32 idatTag (defl [0, 30, 20, 10, 255]))
      rfl
    rcases List.mem_cons.mp hp with rfl | hp
    · show u32be (crc32 iendTag []) = u32be (crc32 iendTag [])
      rfl
    · cases hp

theorem c1_witness :
    ∃ out, normalize_cgbi_png
        (fun l => if l = rawDeflate5 then some [0, 10, 20, 30, 255] else none)
        (fun x => x) (markerFirstInput rawDeflate5) = some (Except.ok out) ∧
      out = pngHeader ++ renderChunks
        [(ihdrTag, ihdrPayloadW1H1), (idatTag, [0, 30, 20, 10, 255]), (iendTag, [])] := by
  obtain ⟨out, h1, h2, _⟩ := c1_end_to_end
    (fun l => if l = rawDeflate5 then some [0, 10, 20, 30, 255] else none) some
    (fun x => x) rawDeflate5 (by decide) (by decide) (by decide) (fun _ => rfl) (by decide)
  exact ⟨out, h1, h2⟩
